import Mathlib

/-!
Verification of the ads-chatbot retrieval pipeline.

Shallow embedding of the document-processing pipeline of the
`bhstoller/ads-chatbot` repository:

* `src/app/utils/filters.py` — `filter_expired_deadlines`
* `src/app/utils/guardrails.py` — `classify_guardrail` and `CRITICAL_KEYWORDS`
* `src/app/utils/reranker.py` — `CrossEncoderReranker.rerank`
* `src/app/streamlit_app.py` — the assistant-turn document pipeline of
  `RAGChatApp.run` (retrieval output → temporal filter → reranker →
  context / sources assembly)

External effects are made explicit parameters: the cross-encoder model is an
abstract scoring function, `datetime.today()` is an explicit `Date` argument,
and the output of the retriever is an explicit passage list.  Strings are handled
as `List Char`; the Python `str.lower`, the regex classes `[A-Za-z]` and `\d`
and `datetime.strptime` with format `"%B %d, %Y"` are modelled on the ASCII
range, which is the range all keywords, month names and date patterns of the
program live in.
-/

/-- Models Python `str.lower` on one ASCII character (all keyword
and month-name comparisons of the program are ASCII). -/
def asciiLower (c : Char) : Char :=
  if 'A' ≤ c ∧ c ≤ 'Z' then Char.ofNat (c.toNat + 32) else c

/-- Models Python `str.lower` on a whole string. -/
def lowerList (s : List Char) : List Char := s.map asciiLower

/-- The regex character class `[A-Za-z]` of `filters.py`. -/
def isAlphaAZ (c : Char) : Bool := ('A' ≤ c && c ≤ 'Z') || ('a' ≤ c && c ≤ 'z')

/-- The regex class `\d` restricted to ASCII digits. -/
def isDigit09 (c : Char) : Bool := '0' ≤ c && c ≤ '9'

/-- Numeric value of an ASCII digit. -/
def digitVal (c : Char) : Nat := c.toNat - '0'.toNat

/-- Python `sub in s` substring test (`containsSub sub hay`): some suffix of
the haystack starts with `sub`; the empty needle is contained everywhere. -/
def containsSub (sub : List Char) : List Char → Bool
  | [] => sub.isEmpty
  | c :: rest => sub.isPrefixOf (c :: rest) || containsSub sub rest

/-- Embedding of a langchain `Document` as the pipeline handles it:
`page_content` is the passage text, `source` models the `source` metadata key
(`none` when the key is absent), and `score` models the optional relevance
score field of the `Passage` data model of the spec; no operation in the source
ever writes to it. -/
structure Doc where
  page_content : String
  source : Option String
  score : Option Int
deriving DecidableEq, Repr

/-- A calendar date as produced by `datetime.strptime(...).date()`. -/
structure Date where
  year : Nat
  month : Nat
  day : Nat
deriving DecidableEq, Repr

/-- Python `date` comparison: lexicographic on (year, month, day). -/
def dateLT (a b : Date) : Bool :=
  Nat.blt a.year b.year ||
    (a.year == b.year && (Nat.blt a.month b.month ||
      (a.month == b.month && Nat.blt a.day b.day)))

/-! ## The date regex of `filters.py`

`re.findall` with pattern `[A-Za-z]+ \d{1,2}, \d{4}`: a left-to-right scan for
non-overlapping matches.  At a candidate position, `[A-Za-z]+` greedily takes
the maximal letter run; backtracking to a shorter run cannot help, because the
next character would then be a letter and never the required space, so the
match at a position is: maximal letter run, a space, a 1–2 digit day, `", "`,
and exactly four digits. -/

/-- Matches `, \d{4}` at the head of the list, returning the consumed
characters and the remainder. -/
def matchDigitsTail : List Char → Option (List Char × List Char)
  | c0 :: c1 :: d1 :: d2 :: d3 :: d4 :: rest =>
    if c0 = ',' && c1 = ' ' && isDigit09 d1 && isDigit09 d2 &&
        isDigit09 d3 && isDigit09 d4 then
      some ([c0, c1, d1, d2, d3, d4], rest)
    else none
  | _ => none

/-- Matches `\d{1,2}, \d{4}`: greedily a two-digit day, falling back to one
digit, then `matchDigitsTail`. -/
def matchDay (l : List Char) : Option (List Char × List Char) :=
  match l with
  | a :: rest1 =>
    if isDigit09 a then
      match rest1 with
      | b :: rest2 =>
        if isDigit09 b then
          match matchDigitsTail rest2 with
          | some (t, r) => some (a :: b :: t, r)
          | none =>
            match matchDigitsTail rest1 with
            | some (t, r) => some (a :: t, r)
            | none => none
        else
          match matchDigitsTail rest1 with
          | some (t, r) => some (a :: t, r)
          | none => none
      | [] => none
    else none
  | [] => none

/-- One attempt of the full pattern `[A-Za-z]+ \d{1,2}, \d{4}` anchored at the
head of `l`: maximal letter run, space, day, `", "`, four digits. -/
def matchAt (l : List Char) : Option (List Char × List Char) :=
  let letters := l.takeWhile isAlphaAZ
  if letters.isEmpty then none
  else
    match l.dropWhile isAlphaAZ with
    | c :: rest2 =>
      if c = ' ' then
        match matchDay rest2 with
        | some (t, r) => some (letters ++ ' ' :: t, r)
        | none => none
      else none
    | [] => none

/-- The scan of `re.findall`: try the pattern at each position from the left;
on a match, record it and resume after its end (non-overlapping).  The fuel is
the length of the text; every match consumes at least one character, so this
fuel is sufficient (`findallAux_fuel` below). -/
def findallAux : Nat → List Char → List (List Char)
  | 0, _ => []
  | _ + 1, [] => []
  | fuel + 1, c :: rest =>
    match matchAt (c :: rest) with
    | some (m, r) => m :: findallAux fuel r
    | none => findallAux fuel rest

/-- The full `re.findall` of the date pattern over the whole text. -/
def findall (l : List Char) : List (List Char) := findallAux l.length l

/-! ## `datetime.strptime(m, "%B %d, %Y")`

The CPython `_strptime` lowercases the input and matches it in full against
the regex built from the format: a full English month name, a space, a day
matching `(3[01]|[12]\d|0[1-9]|[1-9])`, the literal `", "`, and a four-digit
year; `datetime(...)` construction then rejects out-of-range dates
(`year 0`, or a day exceeding the month length, leap years included). -/

/-- The lowercase full month names of the C locale, with their numbers.  The
set is prefix-free, so the first prefix match is the only one and the CPython
longest-first alternation order is immaterial. -/
def monthTable : List (Nat × List Char) :=
  [(1, "january".toList), (2, "february".toList), (3, "march".toList),
   (4, "april".toList), (5, "may".toList), (6, "june".toList),
   (7, "july".toList), (8, "august".toList), (9, "september".toList),
   (10, "october".toList), (11, "november".toList), (12, "december".toList)]

/-- Finds the month name at the head of an (already lowercased) string and
returns its number and the remainder. -/
def findMonth : List (Nat × List Char) → List Char → Option (Nat × List Char)
  | [], _ => none
  | (m, name) :: rest, s =>
    if name.isPrefixOf s then some (m, s.drop name.length)
    else findMonth rest s

/-- The day alternation `(3[01]|[12]\d|0[1-9]|[1-9])`, tried in CPython
order.  The alternation may commit: whenever a two-digit branch succeeds
locally but the following `", "` fails, the one-digit fallback would place the
second digit where the comma is required and fail as well. -/
def parseDay : List Char → Option (Nat × List Char)
  | [] => none
  | c :: rest =>
    if c = '3' then
      match rest with
      | '0' :: r => some (30, r)
      | '1' :: r => some (31, r)
      | _ => some (3, rest)
    else if c = '1' || c = '2' then
      match rest with
      | d :: r =>
        if isDigit09 d then some (digitVal c * 10 + digitVal d, r)
        else some (digitVal c, rest)
      | [] => some (digitVal c, [])
    else if c = '0' then
      match rest with
      | d :: r => if isDigit09 d && d ≠ '0' then some (digitVal d, r) else none
      | [] => none
    else if isDigit09 c then some (digitVal c, rest)
    else none

/-- Gregorian leap year, as `datetime` uses. -/
def isLeap (y : Nat) : Bool := (y % 4 == 0 && y % 100 != 0) || y % 400 == 0

/-- Length of a month, as `datetime` validates. -/
def daysInMonth (y m : Nat) : Nat :=
  if m == 2 then (if isLeap y then 29 else 28)
  else if m == 4 || m == 6 || m == 9 || m == 11 then 30
  else 31

/-- Models `datetime.strptime` with format `"%B %d, %Y"` followed by
`.date()`, returning `none` where
CPython raises (`ValueError` from `_strptime` or from `datetime`). -/
def parseDate (input : List Char) : Option Date :=
  let s := lowerList input
  match findMonth monthTable s with
  | none => none
  | some (m, r1) =>
    match r1 with
    | ' ' :: r2 =>
      match parseDay r2 with
      | none => none
      | some (d, r3) =>
        match r3 with
        | ',' :: ' ' :: y1 :: y2 :: y3 :: y4 :: r4 =>
          if isDigit09 y1 && isDigit09 y2 && isDigit09 y3 && isDigit09 y4 &&
              r4.isEmpty then
            let y := digitVal y1 * 1000 + digitVal y2 * 100 +
              digitVal y3 * 10 + digitVal y4
            if 1 ≤ y ∧ d ≤ daysInMonth y m then some ⟨y, m, d⟩ else none
          else none
        | _ => none
    | _ => none

/-! ## `filter_expired_deadlines` (`src/app/utils/filters.py`)

`datetime.today().date()` is passed explicitly as `today`. -/

/-- The `keep` flag of the inner loop: start at `True`; for each regex match,
try to parse it — an expired parsed date clears the flag, a `ValueError` is
swallowed by `except: pass`. -/
def docKeep (today : Date) (doc : Doc) : Bool :=
  (findall doc.page_content.toList).foldl
    (fun keep m =>
      match parseDate m with
      | some d => if dateLT d today then false else keep
      | none => keep)
    true

/-- Models `filter_expired_deadlines`: start from an empty `filtered_docs` and
append, in order, every doc whose `keep` flag survives its matches. -/
def filter_expired_deadlines (today : Date) (docs : List Doc) : List Doc :=
  docs.foldl
    (fun filtered_docs doc =>
      if docKeep today doc then filtered_docs ++ [doc] else filtered_docs)
    []

/-! ## `classify_guardrail` (`src/app/utils/guardrails.py`) -/

/-- The `CRITICAL_KEYWORDS` dict; Python dicts iterate in insertion order, so
a list of pairs reproduces the (stable) category order. -/
def CRITICAL_KEYWORDS : List (String × List String) :=
  [("deadline", ["deadline", "due date", "closes", "cutoff", "round"]),
   ("tuition", ["fee", "tuition", "cost", "price"]),
   ("requirement", ["requirement", "criteria", "prerequisite", "gpa"])]

/-- The abstain message of `classify_guardrail` (two adjacent Python string
literals, concatenated). -/
def abstainMessage : String :=
  "I can’t verify that from official Applied Data Science pages. " ++
    "Please contact admissions at adsadmissions@uchicago.edu."

/-- The warn message of `classify_guardrail` for a given category. -/
def warnMessage (category : String) : String :=
  "⚠️ This answer is based on retrieved information about " ++ category ++
    ", but please confirm with admissions for the most up-to-date details."

/-- Models the single-space join of the lowercased passage contents. -/
def combinedText (docs : List Doc) : List Char :=
  List.intercalate [' '] (docs.map (fun d => lowerList d.page_content.toList))

/-- The category loop of `classify_guardrail`: the first category with a
synonym in the query decides; it returns `abstain` when none of its synonyms
occur in the combined doc text and `warn` otherwise; falling off the loop
returns `pass`. -/
def classifyAux (q combined : List Char) :
    List (String × List String) → String × String
  | [] => ("pass", "")
  | (category, synonyms) :: rest =>
    if synonyms.any (fun kw => containsSub kw.toList q) then
      if !(synonyms.any (fun kw => containsSub kw.toList combined)) then
        ("abstain", abstainMessage)
      else
        ("warn", warnMessage category)
    else classifyAux q combined rest

/-- Models `classify_guardrail` on a question and a passage list. -/
def classify_guardrail (question : String) (docs : List Doc) : String × String :=
  classifyAux (lowerList question.toList) (combinedText docs) CRITICAL_KEYWORDS

/-! ## `CrossEncoderReranker.rerank` (`src/app/utils/reranker.py`)

The loaded cross-encoder (`self.tokenizer` + `self.model`) is an abstract
per-pair scoring function `scorer`; cross-encoder logits are modelled in an
ordered, decidable score type (`Int`).  The Python `list.sort` with key and
reverse flag is a stable descending sort: an insertion sort that inserts
each element before the already-placed elements of smaller-or-equal score —
those came later in the input — computes exactly that order. -/

/-- Inserts a scored doc into a descending-sorted list, after every
already-placed element of strictly greater score and also after every one of
equal score (the elements already in the list originate later in the input,
so this placement realises the Python sort stability: an element keeps its
position before later-input elements of equal score). -/
def insertDesc (p : Doc × Int) : List (Doc × Int) → List (Doc × Int)
  | [] => [p]
  | q :: rest => if p.2 < q.2 then q :: insertDesc p rest else p :: q :: rest

/-- Stable descending sort by score: `scored_docs.sort(key=lambda x: x[1],
reverse=True)`. -/
def sortDesc (l : List (Doc × Int)) : List (Doc × Int) := l.foldr insertDesc []

/-- Models `rerank`: score the query/content pairs,
zip docs with their scores, sort stably by descending score, truncate to
`top_k` and project the docs back out. -/
def rerank (scorer : String → String → Int) (query : String) (docs : List Doc)
    (top_k : Nat) : List Doc :=
  let scores := docs.map (fun d => scorer query d.page_content)
  let scored_docs := docs.zip scores
  ((sortDesc scored_docs).take top_k).map Prod.fst

/-- The batched scoring call `self.model(**inputs)` with a fallible scorer:
the source wraps no pair in a `try`, so the first raised exception propagates
out of `rerank` unhandled. -/
def scoreAll (scorer : String → String → Except String Int) (query : String) :
    List Doc → Except String (List Int)
  | [] => Except.ok []
  | d :: rest =>
    match scorer query d.page_content with
    | Except.error e => Except.error e
    | Except.ok s =>
      match scoreAll scorer query rest with
      | Except.error e => Except.error e
      | Except.ok ss => Except.ok (s :: ss)

/-- Models `rerank` in the presence of scoring exceptions: any failure in the batched
scoring call aborts the whole rerank (there is no per-pair handler in the
source). -/
def rerankE (scorer : String → String → Except String Int) (query : String)
    (docs : List Doc) (top_k : Nat) : Except String (List Doc) :=
  match scoreAll scorer query docs with
  | Except.error e => Except.error e
  | Except.ok scores =>
    Except.ok (((sortDesc (docs.zip scores)).take top_k).map Prod.fst)

/-! ## The assistant-turn pipeline of `RAGChatApp.run`
(`src/app/streamlit_app.py`)

After retrieval (`retrieved_docs`, an explicit parameter here), the code runs
the temporal filter, reranks with `top_k=5`, assembles the context by joining
passage contents with a double line break, and renders one source line per
reranked passage (display joins these lines with a single line break).
`classify_guardrail` is never invoked by `run`. -/

/-- One rendered source line: a dash, then the `source` metadata value, with
`Unknown source` as the default for a missing key. -/
def sourceLine (d : Doc) : String := "- " ++ d.source.getD "Unknown source"

/-- The document pipeline of `RAGChatApp.run`: returns the context string
handed to the LLM chain and the ordered list of rendered source lines. -/
def run_pipeline (scorer : String → String → Int) (today : Date)
    (prompt : String) (retrieved_docs : List Doc) : String × List String :=
  let filtered := filter_expired_deadlines today retrieved_docs
  let reranked := rerank scorer prompt filtered 5
  let context := String.intercalate "\n\n" (reranked.map (fun d => d.page_content))
  let sources := reranked.map sourceLine
  (context, sources)

/-! ## Adequacy of the fuelled regex scan -/

theorem matchDigitsTail_length (l : List Char) (p : List Char × List Char)
    (h : matchDigitsTail l = some p) : p.2.length + 6 = l.length := by
  unfold matchDigitsTail at h
  split at h
  · split at h
    · cases h
      simp
    · cases h
  · cases h

theorem matchDay_length (l : List Char) (p : List Char × List Char)
    (h : matchDay l = some p) : p.2.length < l.length := by
  cases l with
  | nil => simp [matchDay] at h
  | cons a rest1 =>
    cases rest1 with
    | nil =>
      simp only [matchDay] at h
      by_cases ha : isDigit09 a = true
      · rw [if_pos ha] at h; cases h
      · rw [if_neg ha] at h; cases h
    | cons b rest2 =>
      simp only [matchDay] at h
      by_cases ha : isDigit09 a = true
      · rw [if_pos ha] at h
        by_cases hb : isDigit09 b = true
        · rw [if_pos hb] at h
          cases h2 : matchDigitsTail rest2 with
          | some q =>
            obtain ⟨t, r⟩ := q
            rw [h2] at h
            cases h
            have h5 := matchDigitsTail_length rest2 (t, r) h2
            show r.length < (a :: b :: rest2).length
            simp only [List.length_cons] at h5 ⊢
            omega
          | none =>
            rw [h2] at h
            cases h3 : matchDigitsTail (b :: rest2) with
            | some q =>
              obtain ⟨t, r⟩ := q
              rw [h3] at h
              cases h
              have h5 := matchDigitsTail_length (b :: rest2) (t, r) h3
              show r.length < (a :: b :: rest2).length
              simp only [List.length_cons] at h5 ⊢
              omega
            | none => rw [h3] at h; cases h
        · rw [if_neg hb] at h
          cases h3 : matchDigitsTail (b :: rest2) with
          | some q =>
            obtain ⟨t, r⟩ := q
            rw [h3] at h
            cases h
            have h5 := matchDigitsTail_length (b :: rest2) (t, r) h3
            show r.length < (a :: b :: rest2).length
            simp only [List.length_cons] at h5 ⊢
            omega
          | none => rw [h3] at h; cases h
      · rw [if_neg ha] at h; cases h

theorem matchAt_length (l : List Char) (p : List Char × List Char)
    (h : matchAt l = some p) : p.2.length < l.length := by
  simp only [matchAt] at h
  by_cases hE : (l.takeWhile isAlphaAZ).isEmpty = true
  · rw [if_pos hE] at h; cases h
  · rw [if_neg hE] at h
    split at h
    case _ c rest2 hD =>
      by_cases hc : c = ' '
      · rw [if_pos hc] at h
        cases hm : matchDay rest2 with
        | none => rw [hm] at h; cases h
        | some q =>
          obtain ⟨t, r⟩ := q
          rw [hm] at h
          cases h
          have h4 := matchDay_length rest2 (t, r) hm
          have h1 : (l.takeWhile isAlphaAZ).length +
              (l.dropWhile isAlphaAZ).length = l.length := by
            rw [← List.length_append, List.takeWhile_append_dropWhile]
          have h2 : (l.dropWhile isAlphaAZ).length = rest2.length + 1 := by
            rw [hD]; rfl
          have h3 : (l.takeWhile isAlphaAZ).length ≠ 0 := by
            cases hT : l.takeWhile isAlphaAZ with
            | nil => rw [hT] at hE; simp at hE
            | cons x xs => simp
          show r.length < l.length
          simp only [List.length_cons] at h4
          omega
      · rw [if_neg hc] at h; cases h
    case _ => cases h

theorem findallAux_fuel (n : Nat) : ∀ (l : List Char), l.length = n →
    ∀ fuel, n ≤ fuel → findallAux fuel l = findallAux n l := by
  induction n using Nat.strong_induction_on with
  | _ n ih =>
    intro l hl fuel hf
    subst hl
    cases l with
    | nil => cases fuel <;> rfl
    | cons c rest =>
      cases fuel with
      | zero => simp at hf
      | succ fuel =>
        simp only [List.length_cons]
        rw [findallAux, findallAux]
        cases hm : matchAt (c :: rest) with
        | none =>
          have h1 := ih rest.length (by simp) rest rfl fuel
            (by simp only [List.length_cons] at hf; omega)
          simp [h1]
        | some p =>
          obtain ⟨m, r⟩ := p
          have hr : r.length < rest.length + 1 := by
            have := matchAt_length (c :: rest) (m, r) hm
            simpa using this
          have h1 := ih r.length (by simp; omega) r rfl fuel
            (by simp only [List.length_cons] at hf; omega)
          have h2 := ih r.length (by simp; omega) r rfl rest.length (by omega)
          simp [h1, h2]

/-- The function `findall` satisfies the defining recurrence of the scan:
match at the current position and resume after the match, else advance one
character; the fuel of `findallAux` is invisible. -/
theorem findall_unfold (l : List Char) :
    findall l =
      match matchAt l with
      | some (m, r) => m :: findall r
      | none =>
        match l with
        | [] => []
        | _ :: rest => findall rest := by
  cases l with
  | nil => rfl
  | cons c rest =>
    show findallAux (c :: rest).length (c :: rest) = _
    simp only [List.length_cons]
    rw [findallAux]
    cases hm : matchAt (c :: rest) with
    | none => simp [findall]
    | some p =>
      obtain ⟨m, r⟩ := p
      have hr : r.length < rest.length + 1 := by
        have := matchAt_length (c :: rest) (m, r) hm
        simpa using this
      simp [findall, findallAux_fuel r.length r rfl rest.length (by omega)]

/-! ## Characterising the Temporal Filter -/

/-- One regex match is an expired date mention: it parses under
`"%B %d, %Y"` and the parsed date is strictly earlier than `today`. -/
def expiredMatch (today : Date) (m : List Char) : Bool :=
  match parseDate m with
  | some d => dateLT d today
  | none => false

/-- A passage text carries at least one expired extracted date mention. -/
def hasExpiredMatch (today : Date) (doc : Doc) : Bool :=
  (findall doc.page_content.toList).any (expiredMatch today)

theorem docKeep_eq_not_hasExpiredMatch (today : Date) (doc : Doc) :
    docKeep today doc = !hasExpiredMatch today doc := by
  unfold docKeep hasExpiredMatch
  generalize findall doc.page_content.toList = ms
  suffices hgen : ∀ (b : Bool),
      ms.foldl (fun keep m =>
        match parseDate m with
        | some d => if dateLT d today then false else keep
        | none => keep) b = (b && !ms.any (expiredMatch today)) by
    simpa using hgen true
  induction ms with
  | nil => intro b; simp
  | cons m rest ih =>
    intro b
    have hstep : (match parseDate m with
        | some d => if dateLT d today then false else b
        | none => b) = (b && !expiredMatch today m) := by
      unfold expiredMatch
      cases parseDate m with
      | none => simp
      | some d => cases hd : dateLT d today <;> simp [Bool.and_comm]
    simp only [List.foldl_cons, hstep, ih, List.any_cons]
    cases expiredMatch today m <;> simp

theorem filter_expired_deadlines_eq_filter (today : Date) (docs : List Doc) :
    filter_expired_deadlines today docs = docs.filter (docKeep today) := by
  unfold filter_expired_deadlines
  suffices hgen : ∀ acc : List Doc,
      docs.foldl (fun filtered_docs doc =>
        if docKeep today doc then filtered_docs ++ [doc] else filtered_docs) acc
        = acc ++ docs.filter (docKeep today) by
    simpa using hgen []
  induction docs with
  | nil => intro acc; simp
  | cons d rest ih =>
    intro acc
    cases hd : docKeep today d <;>
      simp [List.filter_cons, hd, ih, List.append_assoc]

/-- The dropping criterion exactly as the claim words it: the passage text
*contains* (as an arbitrary substring, wherever it sits) a date mention that
parses under `"%B %d, %Y"` to a date strictly earlier than `today`. -/
def specContainsExpiredDate (today : Date) (doc : Doc) : Prop :=
  ∃ pre mid post, doc.page_content.toList = pre ++ mid ++ post ∧
    ∃ d, parseDate mid = some d ∧ dateLT d today = true

/-- C2 counterexample: with reference date 2025-01-01, the passage
`"onDecember 1, 2024"` contains the substring `"December 1, 2024"`, which
parses to the expired date 2024-12-01, so the claim says the passage is
dropped; but the regex extracts the maximal letter run, producing the single
unparseable match `"onDecember 1, 2024"`, and the filter keeps the passage. -/
theorem filter_keeps_passage_with_embedded_expired_date :
    filter_expired_deadlines ⟨2025, 1, 1⟩ [⟨"onDecember 1, 2024", none, none⟩] =
      [⟨"onDecember 1, 2024", none, none⟩] ∧
    specContainsExpiredDate ⟨2025, 1, 1⟩ ⟨"onDecember 1, 2024", none, none⟩ := by
  refine ⟨by decide, "on".toList, "December 1, 2024".toList, [], by decide,
    ⟨2024, 12, 1⟩, by decide, by decide⟩

/-- C2 (amended): with the reference date explicit, the filter returns the
input list with exactly those passages removed for which the left-to-right
non-overlapping regex scan (month token = maximal letter run) extracts at
least one date mention that parses and is strictly earlier than the reference
date; a passage whose extracted mentions include no parseable date is kept,
it is dropped as soon as any extracted parsed date is expired, unparseable
extracted mentions are ignored, and the survivors keep their relative
order (the output is a sublist of the input). -/
theorem filter_expired_deadlines_spec (today : Date) (docs : List Doc) :
    filter_expired_deadlines today docs =
      docs.filter (fun d => !hasExpiredMatch today d) ∧
    (filter_expired_deadlines today docs).Sublist docs := by
  constructor
  · rw [filter_expired_deadlines_eq_filter]
    exact List.filter_congr (fun d _ => docKeep_eq_not_hasExpiredMatch today d)
  · rw [filter_expired_deadlines_eq_filter]
    exact List.filter_sublist docs

/-- C5: the Temporal Filter is idempotent for a fixed reference date. -/
theorem filter_expired_deadlines_idempotent (today : Date) (docs : List Doc) :
    filter_expired_deadlines today (filter_expired_deadlines today docs) =
      filter_expired_deadlines today docs := by
  rw [filter_expired_deadlines_eq_filter, filter_expired_deadlines_eq_filter,
    List.filter_filter]
  exact List.filter_congr (fun d _ => by cases docKeep today d <;> simp)

/-! ## Characterising the Guardrail Classifier -/

theorem classifyAux_eq_find (q combined : List Char)
    (cats : List (String × List String)) :
    classifyAux q combined cats =
      match cats.find? (fun p => p.2.any (fun kw => containsSub kw.toList q)) with
      | none => ("pass", "")
      | some (category, synonyms) =>
        if synonyms.any (fun kw => containsSub kw.toList combined) then
          ("warn", warnMessage category)
        else ("abstain", abstainMessage) := by
  induction cats with
  | nil => rfl
  | cons head tail ih =>
    obtain ⟨category, synonyms⟩ := head
    by_cases hq : synonyms.any (fun kw => containsSub kw.toList q) = true
    · have hfind2 : List.find? (fun p => p.2.any (fun kw => containsSub kw.toList q))
          ((category, synonyms) :: tail) = some (category, synonyms) :=
        List.find?_cons_of_pos tail hq
      rw [classifyAux, if_pos hq, hfind2]
      show (if (!synonyms.any fun kw => containsSub kw.toList combined) = true
          then ("abstain", abstainMessage) else ("warn", warnMessage category)) =
        (if (synonyms.any fun kw => containsSub kw.toList combined) = true
          then ("warn", warnMessage category) else ("abstain", abstainMessage))
      cases hc : synonyms.any (fun kw => containsSub kw.toList combined) <;> simp
    · have hfind2 : List.find? (fun p => p.2.any (fun kw => containsSub kw.toList q))
          ((category, synonyms) :: tail) =
          List.find? (fun p => p.2.any (fun kw => containsSub kw.toList q)) tail :=
        List.find?_cons_of_neg tail (by simpa using hq)
      rw [classifyAux, if_neg hq, hfind2, ih]

/-- C3: the verdict of the Guardrail Classifier is decided by the first category of
the fixed `CRITICAL_KEYWORDS` order whose synonyms occur (case-insensitively)
in the query — `abstain` with the fixed admissions advisory when none of that
synonyms of that category occur in the concatenated passage text, `warn` naming the
category when one does — and it is `pass` with no advisory when no category
matches; categories after the first match never influence the verdict. -/
theorem classify_guardrail_first_category (question : String) (docs : List Doc) :
    classify_guardrail question docs =
      match CRITICAL_KEYWORDS.find? (fun p =>
          p.2.any (fun kw => containsSub kw.toList (lowerList question.toList))) with
      | none => ("pass", "")
      | some (category, synonyms) =>
        if synonyms.any (fun kw => containsSub kw.toList (combinedText docs)) then
          ("warn", warnMessage category)
        else ("abstain", abstainMessage) :=
  classifyAux_eq_find (lowerList question.toList) (combinedText docs)
    CRITICAL_KEYWORDS

/-- C10: a query that mentions a synonym of some sensitive category, asked
with an empty passage list, always yields `abstain` with the fixed admissions
advisory: the concatenation of zero passages is the empty string and contains
no synonym. -/
theorem classify_guardrail_empty_retrieval (question : String)
    (h : ∃ p ∈ CRITICAL_KEYWORDS, ∃ kw ∈ p.2,
      containsSub kw.toList (lowerList question.toList) = true) :
    classify_guardrail question [] = ("abstain", abstainMessage) := by
  have hcomb : combinedText [] = [] := rfl
  have hfind : (CRITICAL_KEYWORDS.find? (fun p =>
      p.2.any (fun kw => containsSub kw.toList (lowerList question.toList)))).isSome := by
    rw [List.find?_isSome]
    obtain ⟨p, hp, kw, hkw, hc⟩ := h
    exact ⟨p, hp, List.any_eq_true.mpr ⟨kw, hkw, hc⟩⟩
  obtain ⟨res, hres⟩ := Option.isSome_iff_exists.mp hfind
  obtain ⟨category, synonyms⟩ := res
  have hmem : (category, synonyms) ∈ CRITICAL_KEYWORDS :=
    List.mem_of_find?_eq_some hres
  have hnonempty : ∀ p ∈ CRITICAL_KEYWORDS, ∀ kw ∈ p.2,
      (kw.toList.isEmpty = false) := by decide
  have hnone : synonyms.any (fun kw => containsSub kw.toList (combinedText [])) = false := by
    rw [hcomb]
    rw [List.any_eq_false]
    intro kw hkw
    have : containsSub kw.toList [] = kw.toList.isEmpty := rfl
    rw [this, hnonempty (category, synonyms) hmem kw hkw]
    simp
  rw [classify_guardrail]
  rw [show classifyAux (lowerList question.toList) (combinedText [])
      CRITICAL_KEYWORDS = _ from classifyAux_eq_find _ _ _]
  rw [hres]
  show (if (synonyms.any fun kw => containsSub kw.toList (combinedText [])) = true
      then ("warn", warnMessage category) else ("abstain", abstainMessage)) = _
  rw [hnone]
  simp

/-- C10 witness: the query `"deadline"` with an empty passage list. -/
theorem classify_guardrail_empty_retrieval_witness :
    classify_guardrail "deadline" [] = ("abstain", abstainMessage) :=
  classify_guardrail_empty_retrieval "deadline" (by decide)

/-- C1: `RAGChatApp.run` never consults the Guardrail Classifier.  For the
query `"What is the application deadline?"` over one passage with no deadline
vocabulary, `classify_guardrail` returns `abstain`, yet the assembled
pipeline result forwards the passage content as the context and renders a
non-empty source list — not the empty context, empty passage list and
advisory-only result the claim requires. -/
theorem run_forwards_passages_despite_abstain :
    (classify_guardrail "What is the application deadline?"
      [⟨"The sky is blue.", some "https://blue.example", none⟩]).1 = "abstain" ∧
    run_pipeline (fun _ _ => 0) ⟨2025, 1, 1⟩ "What is the application deadline?"
      [⟨"The sky is blue.", some "https://blue.example", none⟩] =
      ("The sky is blue.", ["- https://blue.example"]) := by
  exact ⟨by decide, by decide⟩

/-! ## The stable descending sort of `rerank` -/

theorem insertDesc_perm (p : Doc × Int) (l : List (Doc × Int)) :
    (insertDesc p l).Perm (p :: l) := by
  induction l with
  | nil => exact List.Perm.refl _
  | cons q rest ih =>
    by_cases h : p.2 < q.2
    · rw [insertDesc, if_pos h]
      exact (ih.cons q).trans (List.Perm.swap p q rest)
    · rw [insertDesc, if_neg h]

theorem sortDesc_perm (l : List (Doc × Int)) : (sortDesc l).Perm l := by
  induction l with
  | nil => exact List.Perm.refl _
  | cons p rest ih =>
    exact (insertDesc_perm p (sortDesc rest)).trans (ih.cons p)

theorem insertDesc_pairwise (p : Doc × Int) (l : List (Doc × Int))
    (hl : l.Pairwise (fun a b => b.2 ≤ a.2)) :
    (insertDesc p l).Pairwise (fun a b => b.2 ≤ a.2) := by
  induction l with
  | nil => simp [insertDesc]
  | cons q rest ih =>
    rw [List.pairwise_cons] at hl
    obtain ⟨hq, hrest⟩ := hl
    by_cases h : p.2 < q.2
    · rw [insertDesc, if_pos h]
      rw [List.pairwise_cons]
      refine ⟨?_, ih hrest⟩
      intro x hx
      rcases List.mem_cons.mp ((insertDesc_perm p rest).mem_iff.mp hx) with hx' | hx'
      · exact hx' ▸ le_of_lt h
      · exact hq x hx'
    · rw [insertDesc, if_neg h]
      rw [List.pairwise_cons]
      refine ⟨?_, List.Pairwise.cons hq hrest⟩
      intro x hx
      rcases List.mem_cons.mp hx with hx' | hx'
      · exact hx' ▸ le_of_not_lt h
      · exact le_trans (hq x hx') (le_of_not_lt h)

theorem sortDesc_pairwise (l : List (Doc × Int)) :
    (sortDesc l).Pairwise (fun a b => b.2 ≤ a.2) := by
  induction l with
  | nil => simp [sortDesc]
  | cons p rest ih => exact insertDesc_pairwise p (sortDesc rest) ih

theorem insertDesc_filter (s : Int) (p : Doc × Int) (l : List (Doc × Int)) :
    (insertDesc p l).filter (fun x => x.2 == s) =
      if p.2 == s then p :: l.filter (fun x => x.2 == s)
      else l.filter (fun x => x.2 == s) := by
  induction l with
  | nil =>
    rw [insertDesc]
    cases hp : p.2 == s <;> simp [List.filter, hp]
  | cons q rest ih =>
    by_cases h : p.2 < q.2
    · rw [insertDesc, if_pos h]
      cases hq : q.2 == s
      · cases hp : p.2 == s <;>
          simp [List.filter_cons, hq, hp, ih]
      · have hp : (p.2 == s) = false := by
          have hqs : q.2 = s := by simpa using hq
          have : p.2 ≠ s := by omega
          simpa using this
        simp [List.filter_cons, hq, hp, ih]
    · rw [insertDesc, if_neg h]
      cases hp : p.2 == s <;> simp [List.filter_cons, hp]

theorem sortDesc_filter (s : Int) (l : List (Doc × Int)) :
    (sortDesc l).filter (fun x => x.2 == s) = l.filter (fun x => x.2 == s) := by
  induction l with
  | nil => rfl
  | cons p rest ih =>
    show (insertDesc p (sortDesc rest)).filter (fun x => x.2 == s) = _
    rw [insertDesc_filter, ih]
    cases hp : p.2 == s <;> simp [List.filter_cons, hp]

theorem zip_map_eq_map_pair (docs : List Doc) (f : Doc → Int) :
    docs.zip (docs.map f) = docs.map (fun d => (d, f d)) := by
  induction docs with
  | nil => rfl
  | cons d rest ih => simp [List.zip_cons_cons, ih]

/-- Rewrites `rerank` in terms of the scored list written as a single `map`. -/
theorem rerank_eq (scorer : String → String → Int) (query : String)
    (docs : List Doc) (top_k : Nat) :
    rerank scorer query docs top_k =
      ((sortDesc (docs.map (fun d => (d, scorer query d.page_content)))).take
        top_k).map Prod.fst := by
  unfold rerank
  show ((sortDesc (docs.zip (docs.map (fun d =>
      scorer query d.page_content)))).take top_k).map Prod.fst = _
  rw [zip_map_eq_map_pair]

theorem mem_scored {docs : List Doc} {f : Doc → Int} {x : Doc × Int}
    (hx : x ∈ docs.map (fun d => (d, f d))) : x.1 ∈ docs ∧ x.2 = f x.1 := by
  obtain ⟨d, hd, heq⟩ := List.mem_map.mp hx
  cases heq
  exact ⟨hd, rfl⟩

theorem map_fst_scored (docs : List Doc) (f : Doc → Int) :
    (docs.map (fun d => (d, f d))).map Prod.fst = docs := by
  induction docs with
  | nil => rfl
  | cons d rest ih => simp [ih]

/-- Every passage of a rerank output is an element of the input list (the
source returns the very `Document` objects it was given). -/
theorem mem_of_mem_rerank {scorer : String → String → Int} {query : String}
    {docs : List Doc} {top_k : Nat} {d : Doc}
    (hd : d ∈ rerank scorer query docs top_k) : d ∈ docs := by
  rw [rerank_eq] at hd
  obtain ⟨x, hx, heq⟩ := List.mem_map.mp hd
  have hx2 : x ∈ sortDesc (docs.map fun d => (d, scorer query d.page_content)) :=
    List.mem_of_mem_take hx
  have hx3 := (sortDesc_perm _).mem_iff.mp hx2
  exact heq ▸ (mem_scored hx3).1

/-- C4: the rerank output is descending in the cross-encoder score; it is the
`top_k`-truncation of the full stable sort; passages of equal score keep
their relative input order (for every score value, filtering the full sorted
output by that score gives exactly the input passages of that score, in
input order); the output length is `min top_k (docs.length)`; the empty input
yields the empty output; and when the input is no longer than `top_k` the
output is a permutation carrying all input passages. -/
theorem rerank_sorted_stable_truncated (scorer : String → String → Int)
    (query : String) (docs : List Doc) (top_k : Nat) :
    (rerank scorer query docs top_k).Pairwise
      (fun a b => scorer query b.page_content ≤ scorer query a.page_content) ∧
    rerank scorer query docs top_k =
      (rerank scorer query docs docs.length).take top_k ∧
    (∀ s : Int, (rerank scorer query docs docs.length).filter
        (fun d => scorer query d.page_content == s) =
      docs.filter (fun d => scorer query d.page_content == s)) ∧
    (rerank scorer query docs top_k).length = min top_k docs.length ∧
    rerank scorer query [] top_k = [] ∧
    (docs.length ≤ top_k → (rerank scorer query docs top_k).Perm docs) := by
  have slen : (sortDesc (docs.map (fun d =>
      (d, scorer query d.page_content)))).length = docs.length := by
    rw [(sortDesc_perm _).length_eq, List.length_map]
  refine ⟨?_, ?_, ?_, ?_, by cases top_k <;> rfl, ?_⟩
  · rw [rerank_eq]
    have hpair : (sortDesc (docs.map (fun d =>
        (d, scorer query d.page_content)))).Pairwise (fun a b =>
        scorer query b.1.page_content ≤ scorer query a.1.page_content) := by
      refine List.Pairwise.imp_of_mem ?_ (sortDesc_pairwise _)
      intro a b ha hb hab
      rw [(mem_scored ((sortDesc_perm _).mem_iff.mp ha)).2,
        (mem_scored ((sortDesc_perm _).mem_iff.mp hb)).2] at hab
      exact hab
    exact List.Pairwise.map Prod.fst (fun a b h => h) hpair.take
  · rw [rerank_eq, rerank_eq, List.take_of_length_le (le_of_eq slen), List.map_take]
  · intro s
    rw [rerank_eq, List.take_of_length_le (le_of_eq slen), List.filter_map]
    have hc1 : (sortDesc (docs.map (fun d =>
        (d, scorer query d.page_content)))).filter
          ((fun d => scorer query d.page_content == s) ∘ Prod.fst) =
        (sortDesc (docs.map (fun d =>
          (d, scorer query d.page_content)))).filter (fun x => x.2 == s) :=
      List.filter_congr (fun x hx => by
        have h2 := (mem_scored ((sortDesc_perm _).mem_iff.mp hx)).2
        simp only [Function.comp_apply, h2])
    have hc2 : (docs.map (fun d => (d, scorer query d.page_content))).filter
          (fun x => x.2 == s) =
        (docs.map (fun d => (d, scorer query d.page_content))).filter
          ((fun d => scorer query d.page_content == s) ∘ Prod.fst) :=
      List.filter_congr (fun x hx => by
        have h2 := (mem_scored hx).2
        simp only [Function.comp_apply, h2])
    rw [hc1, sortDesc_filter, hc2, ← List.filter_map, map_fst_scored]
  · rw [rerank_eq, List.length_map, List.length_take, slen]
  · intro hk
    rw [rerank_eq, List.take_of_length_le (by rw [slen]; exact hk)]
    have hperm := (sortDesc_perm (docs.map (fun d =>
      (d, scorer query d.page_content)))).map Prod.fst
    rw [map_fst_scored] at hperm
    exact hperm

/-- C4 witness: a one-passage input, shorter than `top_k = 5`, is returned
as a permutation of itself by the reranker. -/
theorem rerank_sorted_stable_truncated_witness :
    (rerank (fun _ c => (c.length : Int)) "q" [⟨"aa", none, none⟩] 5).Perm
      [⟨"aa", none, none⟩] :=
  (rerank_sorted_stable_truncated (fun _ c => (c.length : Int)) "q"
    [⟨"aa", none, none⟩] 5).2.2.2.2.2 (by decide)

/-- C6 counterexample: the cross-encoder scores the pair (`"q"`, `"a"`) as 7,
but the passage record returned by `rerank` still carries `score = none`:
the source never writes a score onto the `Document` it returns. -/
theorem rerank_score_field_not_overwritten :
    rerank (fun _ _ => 7) "q" [⟨"a", some "s", none⟩] 5 =
      [⟨"a", some "s", none⟩] ∧
    (⟨"a", some "s", none⟩ : Doc).score ≠ some 7 := by
  exact ⟨by decide, by decide⟩

/-- C6 (amended): every passage returned by the Reranker is the input passage
record itself, unchanged — in particular, its `score` field is not
overwritten; the cross-encoder relevance score for (query, content) is used
only transiently, to order and truncate the list. -/
theorem rerank_returns_input_records (scorer : String → String → Int)
    (query : String) (docs : List Doc) (top_k : Nat) (d : Doc)
    (hd : d ∈ rerank scorer query docs top_k) : d ∈ docs :=
  mem_of_mem_rerank hd

/-- C6 witness: the returned record of a concrete rerank is a member of the
concrete input list. -/
theorem rerank_returns_input_records_witness :
    (⟨"a", none, none⟩ : Doc) ∈ [(⟨"a", none, none⟩ : Doc)] :=
  rerank_returns_input_records (fun _ _ => 0) "q" [⟨"a", none, none⟩] 5
    ⟨"a", none, none⟩ (by decide)

/-- C7 counterexample: with a scorer that raises on the pair for `"bad"`,
`rerank` propagates the exception — it does not return the completed ranking
(`good` then `bad`-with-lowest-score) the claim predicts, nor any result. -/
theorem rerank_exception_aborts_batch :
    rerankE (fun _ c => if c = "bad" then Except.error "boom" else Except.ok 0)
      "q" [⟨"good", none, none⟩, ⟨"bad", none, none⟩] 5 =
      Except.error "boom" ∧
    rerankE (fun _ c => if c = "bad" then Except.error "boom" else Except.ok 0)
      "q" [⟨"good", none, none⟩, ⟨"bad", none, none⟩] 5 ≠
      Except.ok [⟨"good", none, none⟩, ⟨"bad", none, none⟩] := by
  have h1 : rerankE (fun _ c => if c = "bad" then Except.error "boom" else Except.ok 0)
      "q" [⟨"good", none, none⟩, ⟨"bad", none, none⟩] 5 = Except.error "boom" := rfl
  refine ⟨h1, ?_⟩
  intro hcontra
  rw [h1] at hcontra
  cases hcontra

/-- C7 (amended): the Reranker scores the batch in one call with no per-pair
exception handling, so if scoring any pair of the batch raises, the whole
rerank call raises and no ranked result is returned. -/
theorem rerankE_error_propagates (scorer : String → String → Except String Int)
    (query : String) (docs : List Doc) (top_k : Nat)
    (h : ∃ d ∈ docs, ∃ e, scorer query d.page_content = Except.error e) :
    ∃ e, rerankE scorer query docs top_k = Except.error e := by
  have hall : ∃ e, scoreAll scorer query docs = Except.error e := by
    obtain ⟨d, hd, e, he⟩ := h
    induction docs with
    | nil => cases hd
    | cons d0 rest ih =>
      rw [scoreAll]
      cases hs : scorer query d0.page_content with
      | error e0 => exact ⟨e0, rfl⟩
      | ok s0 =>
        rcases List.mem_cons.mp hd with hd0 | hd0
        · rw [hd0] at he
          rw [he] at hs
          cases hs
        · obtain ⟨e1, he1⟩ := ih hd0
          rw [he1]
          exact ⟨e1, rfl⟩
  obtain ⟨e, he⟩ := hall
  rw [rerankE, he]
  exact ⟨e, rfl⟩

/-- C7 witness: a concrete failing pair makes the concrete rerank call
return an error. -/
theorem rerankE_error_propagates_witness :
    ∃ e, rerankE (fun _ _ => Except.error "down") "q" [⟨"p", none, none⟩] 2 =
      Except.error e :=
  rerankE_error_propagates (fun _ _ => Except.error "down") "q"
    [⟨"p", none, none⟩] 2 ⟨⟨"p", none, none⟩, by decide, "down", rfl⟩

/-- C9: neither the Temporal Filter nor the Reranker mutates the content or
source identifier of a passage: every passage of either stage output agrees
in `page_content` and `source` with an input passage (the stages return the
very records they were given). -/
theorem stages_preserve_content_and_source (today : Date)
    (scorer : String → String → Int) (query : String) (docs : List Doc)
    (top_k : Nat) :
    (∀ d ∈ filter_expired_deadlines today docs, ∃ d0 ∈ docs,
      d.page_content = d0.page_content ∧ d.source = d0.source) ∧
    (∀ d ∈ rerank scorer query docs top_k, ∃ d0 ∈ docs,
      d.page_content = d0.page_content ∧ d.source = d0.source) := by
  constructor
  · intro d hd
    rw [filter_expired_deadlines_eq_filter] at hd
    exact ⟨d, (List.mem_filter.mp hd).1, rfl, rfl⟩
  · intro d hd
    exact ⟨d, mem_of_mem_rerank hd, rfl, rfl⟩

/-- C9 witness: a concrete passage surviving the concrete filter has its
content and source among the input. -/
theorem stages_preserve_content_and_source_witness :
    ∃ d0 ∈ [(⟨"x", some "s", none⟩ : Doc)],
      (⟨"x", some "s", none⟩ : Doc).page_content = d0.page_content ∧
      (⟨"x", some "s", none⟩ : Doc).source = d0.source :=
  (stages_preserve_content_and_source ⟨2025, 1, 1⟩ (fun _ _ => 0) "q"
    [⟨"x", some "s", none⟩] 5).1 ⟨"x", some "s", none⟩ (by decide)

/-- C8: for every verdict (the source assembles unconditionally, hence in
particular for every non-abstain verdict), the context is the reranked
passage contents joined by a double line break, and the source list is
parallel to the reranked passages — same length, and entry `i` is rendered
from passage `i`.  Concretely, for the query `"hello"` (which matches no
sensitive category) over two equal-scored passages, the verdict is `pass`
with no advisory, the context joins both passage texts in order, and the
source list has length 2. -/
theorem run_pipeline_context_and_sources (scorer : String → String → Int)
    (today : Date) (prompt : String) (docs : List Doc) :
    (run_pipeline scorer today prompt docs).1 =
      String.intercalate "\n\n"
        ((rerank scorer prompt (filter_expired_deadlines today docs) 5).map
          (fun d => d.page_content)) ∧
    (run_pipeline scorer today prompt docs).2.length =
      (rerank scorer prompt (filter_expired_deadlines today docs) 5).length ∧
    (∀ i : Nat, (run_pipeline scorer today prompt docs).2[i]? =
      ((rerank scorer prompt (filter_expired_deadlines today docs) 5)[i]?).map
        sourceLine) ∧
    classify_guardrail "hello"
      [⟨"Alpha", some "a.html", none⟩, ⟨"Beta", some "b.html", none⟩] =
      ("pass", "") ∧
    run_pipeline (fun _ _ => 0) ⟨2025, 1, 1⟩ "hello"
      [⟨"Alpha", some "a.html", none⟩, ⟨"Beta", some "b.html", none⟩] =
      ("Alpha\n\nBeta", ["- a.html", "- b.html"]) := by
  refine ⟨rfl, ?_, ?_, by decide, by decide⟩
  · show (List.map sourceLine _).length = _
    rw [List.length_map]
  · intro i
    show (List.map sourceLine _)[i]? = _
    rw [List.getElem?_map]
